import Mathlib

/-!
Verification of the lint-rendering engine (`src/render.rs`).

The Rust source is shallowly embedded here:

* Terminal writes (`console::Term`) are modelled as emission of structured
  events; styling (colors, bold, underline) is purely cosmetic and carried
  only as data (e.g. the severity on a finding header).  Write failures
  (`IoError`) are environment faults outside the program text and are not
  modelled: the embedding collects the events a successful sequence of
  writes would produce, and models the program's own fallible steps
  (reading the current directory, re-reading a file, index lookups,
  `unwrap`) with an explicit `Except`.
* `usize` arithmetic is `Nat`; Rust's `saturating_sub` is exactly `Nat.sub`.
* Texts are `List Char` where character-level processing happens and
  `String` where the code merely carries the value around.
-/

/-- `LintSeverity` from `src/lint_message.rs` (declared outside `src/`; the
closed set of variants is given by the `match` in `render_lint_messages` and
by spec §3). -/
inductive LintSeverity
  | error
  | warning
  | advice
  | disabled
deriving DecidableEq

/-- `LintMessage` from `src/lint_message.rs`, restricted to the fields
`render_lint_messages` reads: severity, code, name, description,
original, replacement, line. -/
structure LintMessage where
  severity : LintSeverity
  code : String
  name : String
  description : Option String
  original : Option String
  replacement : Option String
  line : Option Nat
deriving DecidableEq

/-- The ways a call of `render_lint_messages` can abort.  `cwd`,
`fileRead` and `lineMismatch` are `Err` values returned through `?`
(`std::env::current_dir()?`, the `context(...)` on `fs::read_to_string`,
and the `ok_or(anyhow::Error::msg("TODO line mismatch"))?`).  `panicked`
models a Rust panic — in the source the only reachable panic in this
function is the `.unwrap()` on `path_relative_from`; a panic unwinds and
is *not* a returned `Err`. -/
inductive RenderErr
  | cwd
  | fileRead (path : String)
  | lineMismatch
  | panicked
deriving DecidableEq

/-- Whether a `RenderErr` is an `Err` value returned (propagated) by
`render_lint_messages`, as opposed to a panic unwinding past it. -/
def isPropagatedErr : RenderErr → Bool
  | RenderErr.panicked => false
  | _ => true

/-- `PrintedLintErrors` from `src/render.rs`. -/
inductive PrintedLintErrors
  | yes
  | no
deriving DecidableEq

/-- Rust's `static CONTEXT_LINES: usize = 3`. -/
def CONTEXT_LINES : Nat := 3

/-- `similar::DiffableStr::tokenize_lines`, specialised to what the code
consumes: splits a text into its lines, each line keeping its terminator
(`\n`, `\r` or `\r\n`); an empty text has zero lines, and a text without a
trailing terminator keeps its final partial line. -/
def tokenizeLinesAux : List Char → List Char → List (List Char)
  | acc, [] => if acc.isEmpty then [] else [acc.reverse]
  | acc, '\r' :: '\n' :: rest => (acc.reverse ++ ['\r', '\n']) :: tokenizeLinesAux [] rest
  | acc, '\r' :: rest => (acc.reverse ++ ['\r']) :: tokenizeLinesAux [] rest
  | acc, '\n' :: rest => (acc.reverse ++ ['\n']) :: tokenizeLinesAux [] rest
  | acc, c :: rest => tokenizeLinesAux (c :: acc) rest

/-- Lines of a file text, as the diff library's `tokenize_lines` produces
them. -/
def tokenizeLines (text : List Char) : List (List Char) :=
  tokenizeLinesAux [] text

/-- `let start_idx = line_idx.saturating_sub(CONTEXT_LINES);` with
`line_idx = line_number.saturating_sub(1)`. -/
def contextStartIdx (lineNumber : Nat) : Nat :=
  (lineNumber - 1) - CONTEXT_LINES

/-- `let end_idx = cmp::min(max_idx, line_idx + CONTEXT_LINES);` with
`max_idx = lines.len().saturating_sub(1)`. -/
def contextEndIdx (numLines lineNumber : Nat) : Nat :=
  min (numLines - 1) ((lineNumber - 1) + CONTEXT_LINES)

/-- One line printed by the context-window branch: its 1-based displayed
number (`cur_idx + 1`), its raw text, and whether it got the chevron
highlight (`cur_idx == line_idx`). -/
structure CtxLine where
  lineNumber : Nat
  text : List Char
  highlighted : Bool
deriving DecidableEq

instance {ε α : Type} [DecidableEq ε] [DecidableEq α] : DecidableEq (Except ε α)
  | Except.ok a, Except.ok b =>
    if h : a = b then Decidable.isTrue (congrArg _ h)
    else Decidable.isFalse (fun hh => h (Except.ok.inj hh))
  | Except.ok _, Except.error _ => Decidable.isFalse (fun hh => Except.noConfusion hh)
  | Except.error _, Except.ok _ => Decidable.isFalse (fun hh => Except.noConfusion hh)
  | Except.error a, Except.error b =>
    if h : a = b then Decidable.isTrue (congrArg _ h)
    else Decidable.isFalse (fun hh => h (Except.error.inj hh))

/-- The `for`-loops of the source propagate the first `Err` via `?`;
this is that control flow on a list of inputs. -/
def traverseExcept (f : α → Except ε β) : List α → Except ε (List β)
  | [] => Except.ok []
  | x :: xs =>
    match f x with
    | Except.error e => Except.error e
    | Except.ok y =>
      match traverseExcept f xs with
      | Except.error e => Except.error e
      | Except.ok ys => Except.ok (y :: ys)

/-- The context-window branch of `render_lint_messages`
(`src/render.rs:124-160`), after the file has been read: tokenize the
file, compute the clamped window `[start_idx, end_idx]`, and for each
index in the inclusive range print the line, failing with the
line-mismatch error when `lines.get(cur_idx)` is `None`. -/
def renderContext (file : List Char) (lineNumber : Nat) :
    Except RenderErr (List CtxLine) :=
  let lines := tokenizeLines file
  let lineIdx := lineNumber - 1
  let startIdx := contextStartIdx lineNumber
  let endIdx := contextEndIdx lines.length lineNumber
  traverseExcept
    (fun curIdx =>
      match lines.get? curIdx with
      | some l => Except.ok ⟨curIdx + 1, l, curIdx == lineIdx⟩
      | none => Except.error RenderErr.lineMismatch)
    (List.range' startIdx (endIdx + 1 - startIdx))

/-- `similar::DiffOp`: a compound line-diff operation over index ranges,
as produced by the external line-diff primitive (an external collaborator
per spec §1/§6). -/
inductive DiffOp
  | equal (oldIndex newIndex len : Nat)
  | delete (oldIndex oldLen newIndex : Nat)
  | insert (oldIndex newIndex newLen : Nat)
  | replace (oldIndex oldLen newIndex newLen : Nat)
deriving DecidableEq

/-- Length of the longest common prefix of two line sequences. -/
def commonPrefixLen : List (List Char) → List (List Char) → Nat
  | a :: as, b :: bs => if a = b then commonPrefixLen as bs + 1 else 0
  | _, _ => 0

/-- Model of the external line-diff primitive (`similar::TextDiff::from_lines`,
excluded from the core as a collaborator by spec §1 with the contract of §6:
an ordered sequence of `Delete | Insert | Equal`-style operations carrying
old/new indices).  The model diffs by longest common prefix and suffix; in
particular identical inputs yield a single `equal` run covering the whole
text, empty-vs-nonempty yields a pure insert or delete, as any line diff
satisfying the contract does. -/
def textDiffOps (old new : List (List Char)) : List DiffOp :=
  let p := commonPrefixLen old new
  let oldMid := old.drop p
  let newMid := new.drop p
  let s := commonPrefixLen oldMid.reverse newMid.reverse
  let od := oldMid.length - s
  let nd := newMid.length - s
  (if 0 < p then [DiffOp.equal 0 0 p] else []) ++
    (if 0 < od then
      if 0 < nd then [DiffOp.replace p od p nd] else [DiffOp.delete p od p]
    else if 0 < nd then [DiffOp.insert p p nd] else []) ++
    (if 0 < s then [DiffOp.equal (p + od) (p + nd) s] else [])

/-- `similar`'s `grouped_ops`, first step: the leading `Equal` op is
shrunk to its last `n` lines (`offset = len.saturating_sub(n)`). -/
def shrinkFirst (n : Nat) : List DiffOp → List DiffOp
  | DiffOp.equal oi ni len :: rest =>
    DiffOp.equal (oi + (len - n)) (ni + (len - n)) (len - (len - n)) :: rest
  | ops => ops

/-- `similar`'s `grouped_ops`: the trailing `Equal` op is shrunk to its
first `n` lines (`len = len.min(n)`). -/
def shrinkLast (n : Nat) (ops : List DiffOp) : List DiffOp :=
  match ops.getLast? with
  | some (DiffOp.equal oi ni len) => ops.dropLast ++ [DiffOp.equal oi ni (min len n)]
  | _ => ops

/-- `similar`'s `grouped_ops` main loop: interior `Equal` runs longer than
`2n` split the pending group, keeping `n` lines of context on each side;
a trailing group that is empty or a lone `Equal` is dropped.  `pending`
holds the current group in reverse. -/
def groupLoop (n : Nat) : List DiffOp → List DiffOp → List (List DiffOp)
  | pending, [] =>
    match pending with
    | [] => []
    | [DiffOp.equal _ _ _] => []
    | _ => [pending.reverse]
  | pending, DiffOp.equal oi ni len :: rest =>
    if n * 2 < len then
      (DiffOp.equal oi ni n :: pending).reverse ::
        groupLoop n [DiffOp.equal (oi + len - n) (ni + len - n) n] rest
    else groupLoop n (DiffOp.equal oi ni len :: pending) rest
  | pending, op :: rest => groupLoop n (op :: pending) rest

/-- `similar`'s `TextDiff::grouped_ops(n)` (external collaborator;
`diff.grouped_ops(3)` in `src/render.rs`): hunks of operations with at
most `n` lines of `Equal` context on each side of a change region. -/
def groupedOps (ops : List DiffOp) (n : Nat) : List (List DiffOp) :=
  match ops with
  | [] => []
  | _ => groupLoop n [] (shrinkLast n (shrinkFirst n ops))

/-- `similar::ChangeTag` of one rendered diff line. -/
inductive ChangeTag
  | delete
  | insert
  | equal
deriving DecidableEq

/-- The tags of the per-line changes `diff.iter_inline_changes(op)` yields
for one compound op: `Equal` ops yield `len` equal lines, `Delete`/`Insert`
their side's lines, `Replace` the deleted lines then the inserted lines. -/
def opChanges : DiffOp → List ChangeTag
  | DiffOp.equal _ _ len => List.replicate len ChangeTag.equal
  | DiffOp.delete _ oldLen _ => List.replicate oldLen ChangeTag.delete
  | DiffOp.insert _ _ newLen => List.replicate newLen ChangeTag.insert
  | DiffOp.replace _ oldLen _ newLen =>
    List.replicate oldLen ChangeTag.delete ++ List.replicate newLen ChangeTag.insert

/-- What the diff branch of `render_lint_messages` writes: the full-width
dashed rule (`write!(stdout, "{:-^1$}\n", "-", 80)`, emitted when
`idx > 0`) or one sign-marked line (`-`, `+` or a space according to the
change's tag). -/
inductive DiffEvent
  | separator
  | line (tag : ChangeTag)
deriving DecidableEq

/-- The tags of the sign lines one hunk produces. -/
def groupChanges (g : List DiffOp) : List DiffEvent :=
  (g.flatMap opChanges).map DiffEvent.line

/-- The `for (idx, group) in diff.grouped_ops(3).iter().enumerate()`
loop of `src/render.rs:85-118`: a separator before every group except
the one at `idx == 0`, then the group's sign lines. -/
def renderDiffGroupsAux (idx : Nat) : List (List DiffOp) → List DiffEvent
  | [] => []
  | g :: gs =>
    (if 0 < idx then [DiffEvent.separator] else []) ++ groupChanges g ++
      renderDiffGroupsAux (idx + 1) gs

/-- The diff body events for a list of hunks. -/
def renderDiffGroups (groups : List (List DiffOp)) : List DiffEvent :=
  renderDiffGroupsAux 0 groups

/-- The diff branch of `render_lint_messages` for one finding carrying
both `original` and `replacement`. -/
def renderDiff (original replacement : String) : List DiffEvent :=
  renderDiffGroups
    (groupedOps (textDiffOps (tokenizeLines original.data) (tokenizeLines replacement.data))
      CONTEXT_LINES)

/-- Path components: the pieces of a path split at `/`. -/
def splitSlashAux : List Char → List Char → List (List Char)
  | acc, [] => [acc.reverse]
  | acc, c :: rest =>
    if c = '/' then acc.reverse :: splitSlashAux [] rest
    else splitSlashAux (c :: acc) rest

/-- Split a path string into its components at `/`; an absolute Unix path
`/x/y` yields an empty root component followed by `x`, `y`, while a
Windows-style `C:/x` yields root `C:` then `x`. -/
def splitSlash (p : List Char) : List (List Char) :=
  splitSlashAux [] p

/-- Rejoin path components with `/`. -/
def joinSlash : List (List Char) → List Char
  | [] => []
  | [c] => c
  | c :: cs => c ++ '/' :: joinSlash cs

/-- The components of `path` relative to the components of `base`, both
already stripped of their common filesystem root: drop the common prefix,
then one `..` per remaining base component followed by the remaining path
components. -/
def relComponents : List (List Char) → List (List Char) → List (List Char)
  | ps, [] => ps
  | [], _b :: bs => List.replicate (bs.length + 1) ['.', '.']
  | p :: ps, b :: bs =>
    if p = b then relComponents ps bs
    else List.replicate (bs.length + 1) ['.', '.'] ++ p :: ps

/-- Modelled from the spec: `crate::path::path_relative_from`
(`src/path.rs` is not under `src/`; only its caller in `src/render.rs`
is).  Spec §6: "given an absolute path and a base directory (both
absolute), returns the path expressed relative to the base, or fails if
no relative path exists (e.g., different filesystem roots on systems
where that applies)".  The filesystem root is modelled as the first
`/`-separated component, so two paths admit a relative expression exactly
when their roots agree. -/
def path_relative_from (path base : List Char) : Option (List Char) :=
  match splitSlash path, splitSlash base with
  | pr :: ptail, br :: btail =>
    if pr = br then some (joinSlash (relComponents ptail btail)) else none
  | _, _ => none

/-- What one finding's renderer writes for that finding, in order: the
header line (severity, code, name), the wrapped description (the external
`textwrap` collaborator's output, carried as one block), then either the
diff body or the context window. -/
inductive Event
  | findingHeader (severity : LintSeverity) (code name : String)
  | descriptionBlock (text : String)
  | diffLine (e : DiffEvent)
  | contextLine (c : CtxLine)
deriving DecidableEq

/-- One per-file block of `render_lint_messages`: the key the loop is
visiting, the relative path printed in the `>>> Lint for {}:` header,
and each finding's events in sequence order. -/
structure FileSection where
  path : String
  relPath : List Char
  findings : List (List Event)
deriving DecidableEq

/-- A top-level thing `render_lint_messages` prints: the
`ok No lint issues.` confirmation line, or one per-file section. -/
inductive TopEvent
  | noIssues
  | fileSection (s : FileSection)
deriving DecidableEq

/-- The body of the per-finding loop of `render_lint_messages`
(`src/render.rs:55-160`): header, optional description, then the diff
branch when both `original` and `replacement` are present, else the
context-window branch when `line` is present (re-reading the file, which
is `fsRead` here, and failing with the file/path error when unreadable),
else nothing. -/
def renderFinding (fsRead : String → Option (List Char)) (path : String)
    (msg : LintMessage) : Except RenderErr (List Event) :=
  let body :=
    match msg.original, msg.replacement with
    | some o, some r => Except.ok ((renderDiff o r).map Event.diffLine)
    | _, _ =>
      match msg.line with
      | some lineNumber =>
        match fsRead path with
        | some file =>
          match renderContext file lineNumber with
          | Except.ok ctx => Except.ok (ctx.map Event.contextLine)
          | Except.error e => Except.error e
        | none => Except.error (RenderErr.fileRead path)
      | none => Except.ok []
  match body with
  | Except.error e => Except.error e
  | Except.ok b =>
    Except.ok (Event.findingHeader msg.severity msg.code msg.name ::
      ((match msg.description with
        | some d => [Event.descriptionBlock d]
        | none => []) ++ b))

/-- The per-path body of `render_lint_messages`'s main loop
(`src/render.rs:38-161`): fetch the path's messages
(`lint_messages.get(path).unwrap()` — the key comes from the map, so the
lookup succeeds), ask for the current working directory
(`std::env::current_dir()?`, the `cwd` argument here, `none` when the
call fails), relativize the path (`path_relative_from(..).unwrap()` —
an `unwrap`, so a `None` is a panic, not a returned error), then render
each finding in order. -/
def renderSection (cwd : Option (List Char)) (fsRead : String → Option (List Char))
    (m : List (String × List LintMessage)) (p : String) :
    Except RenderErr FileSection :=
  let msgs := (List.lookup p m).getD []
  match cwd with
  | none => Except.error RenderErr.cwd
  | some currentDir =>
    match path_relative_from p.data currentDir with
    | none => Except.error RenderErr.panicked
    | some rel =>
      match traverseExcept (renderFinding fsRead p) msgs with
      | Except.error e => Except.error e
      | Except.ok fevs => Except.ok ⟨p, rel, fevs⟩

/-- Lexicographic strict comparison of character lists: the order
`paths.sort()` uses, since `AbsPath` derives `Ord` from `PathBuf`, whose
order is lexicographic on the underlying bytes — which agrees with
lexicographic order on Unicode scalar values, UTF-8 being
order-preserving. -/
def ltChars : List Char → List Char → Bool
  | _, [] => false
  | [], _ :: _ => true
  | a :: as, b :: bs => if a < b then true else if b < a then false else ltChars as bs

/-- Strict string comparison, `a` before `b`. -/
abbrev strLt (a b : String) : Prop := ltChars a.data b.data = true

/-- Non-strict string comparison: `a` not after `b`. -/
abbrev strLe (a b : String) : Prop := ltChars b.data a.data = false

/-- `render_lint_messages` (`src/render.rs:20-165`).  The `HashMap` input
is an association list whose iteration order is arbitrary; the function
prints the `ok No lint issues.` line and returns `No` on an empty map,
and otherwise collects the keys, sorts them ascending (`paths.sort()`, a
stable comparison sort — `insertionSort` here), renders a section per
path, and returns `Yes`. -/
def render_lint_messages (cwd : Option (List Char))
    (fsRead : String → Option (List Char)) (m : List (String × List LintMessage)) :
    Except RenderErr (List TopEvent × PrintedLintErrors) :=
  if m.isEmpty then Except.ok ([TopEvent.noIssues], PrintedLintErrors.no)
  else
    let paths := List.insertionSort strLe (m.map Prod.fst)
    match traverseExcept (renderSection cwd fsRead m) paths with
    | Except.error e => Except.error e
    | Except.ok sections =>
      Except.ok (sections.map TopEvent.fileSection, PrintedLintErrors.yes)

/-- The per-file sections among the top-level output events. -/
def sectionsOf (evs : List TopEvent) : List FileSection :=
  evs.filterMap fun e =>
    match e with
    | TopEvent.fileSection s => some s
    | TopEvent.noIssues => none

/-- A line `print_error` writes to stderr: the `error:`-labelled top line
or one `caused_by:`-labelled cause line, each carrying its (indented)
message. -/
inductive ErrLine
  | errorLine (msg : String)
  | causedBy (msg : String)
deriving DecidableEq

/-- `print_error` (`src/render.rs:188-208`): the error's chain (the error
itself first, then its causes outermost to innermost) is printed as one
`error:` line for the first element, then one `caused_by:` line per
remaining element; an empty chain prints nothing.  The writes themselves
are modelled as infallible event emission, so the `io::Result` is always
`Ok`. -/
def print_error (chain : List String) : List ErrLine :=
  match chain with
  | [] => []
  | e :: rest => ErrLine.errorLine e :: rest.map ErrLine.causedBy

def isErrorLine : ErrLine → Bool
  | ErrLine.errorLine _ => true
  | ErrLine.causedBy _ => false

def isCausedBy : ErrLine → Bool
  | ErrLine.errorLine _ => false
  | ErrLine.causedBy _ => true

/-- `const SPACES: [u8; 255] = [b' '; 255];` from `bspaces`. -/
def SPACES : List Nat := List.replicate 255 32

/-- `bspaces` (`src/render.rs:167-170`): `&SPACES[0..len as usize]`.
Rust slicing panics when the end exceeds the array length, so the model
returns `none` exactly there; `len` is a `u8`, i.e. `len < 256`. -/
def bspaces (len : Nat) : Option (List Nat) :=
  if len ≤ SPACES.length then some (SPACES.take len) else none

def utf8ContByte (b : Nat) : Bool := 128 ≤ b && b < 192

/-- One UTF-8 scalar-value decode step: examine the lead byte `b`,
check the continuation bytes (rejecting stray continuation bytes,
truncated sequences, overlong encodings, surrogates and out-of-range
lead bytes), and decode the remaining bytes with `go`. -/
def utf8Step (go : List Nat → Option (List Char)) (b : Nat) (rest : List Nat) :
    Option (List Char) :=
  if b < 128 then (go rest).map (fun cs => Char.ofNat b :: cs)
  else if 194 ≤ b && b ≤ 223 then
    match rest with
    | b2 :: rest2 =>
      if utf8ContByte b2 then
        (go rest2).map (fun cs => Char.ofNat ((b - 192) * 64 + (b2 - 128)) :: cs)
      else none
    | [] => none
  else if 224 ≤ b && b ≤ 239 then
    match rest with
    | b2 :: b3 :: rest3 =>
      if utf8ContByte b2 && utf8ContByte b3 &&
          (b ≠ 224 || 160 ≤ b2) && (b ≠ 237 || b2 < 160) then
        (go rest3).map
          (fun cs => Char.ofNat ((b - 224) * 4096 + (b2 - 128) * 64 + (b3 - 128)) :: cs)
      else none
    | _ => none
  else if 240 ≤ b && b ≤ 244 then
    match rest with
    | b2 :: b3 :: b4 :: rest4 =>
      if utf8ContByte b2 && utf8ContByte b3 && utf8ContByte b4 &&
          (b ≠ 240 || 144 ≤ b2) && (b ≠ 244 || b2 < 144) then
        (go rest4).map
          (fun cs =>
            Char.ofNat
              ((b - 240) * 262144 + (b2 - 128) * 4096 + (b3 - 128) * 64 + (b4 - 128)) :: cs)
      else none
    | _ => none
  else none

/-- UTF-8 decoding, driven by a step-count bound for structural
termination: every step consumes at least one byte, so a bound of the
byte count (as `utf8Decode` passes) never runs out and the `none` in the
exhausted case is unreachable from `utf8Decode`. -/
def utf8DecodeFuel : Nat → List Nat → Option (List Char)
  | _, [] => some []
  | 0, _ :: _ => none
  | fuel + 1, b :: rest => utf8Step (utf8DecodeFuel fuel) b rest

/-- UTF-8 decoding of a byte sequence, `none` exactly on invalid UTF-8.
This models the validity predicate behind
`std::str::from_utf8_unchecked`'s safety requirement. -/
def utf8Decode (l : List Nat) : Option (List Char) := utf8DecodeFuel l.length l

/-- `spaces` (`src/render.rs:172-176`): the byte slice from `bspaces`
reinterpreted as text (`std::str::from_utf8_unchecked`); the model
decodes it, so an invalid-UTF-8 slice would surface as `none`. -/
def spaces (len : Nat) : Option (List Char) :=
  match bspaces len with
  | some bytes => utf8Decode bytes
  | none => none

/-- A sample finding used to exercise the renderer on concrete input. -/
def sampleMsg : LintMessage :=
  ⟨LintSeverity.error, "C", "n", none, none, none, none⟩

/-- A sample mapping with two files, inserted out of order. -/
def sampleMapBA : List (String × List LintMessage) :=
  [("/home/b.txt", [sampleMsg]), ("/home/a.txt", [sampleMsg])]

/-- The same mapping as `sampleMapBA`, inserted in the other order. -/
def sampleMapAB : List (String × List LintMessage) :=
  [("/home/a.txt", [sampleMsg]), ("/home/b.txt", [sampleMsg])]

/-- What rendering either sample mapping produces. -/
def sampleResult : List TopEvent × PrintedLintErrors :=
  ([TopEvent.fileSection
      ⟨"/home/a.txt", ['a', '.', 't', 'x', 't'],
        [[Event.findingHeader LintSeverity.error "C" "n"]]⟩,
    TopEvent.fileSection
      ⟨"/home/b.txt", ['b', '.', 't', 'x', 't'],
        [[Event.findingHeader LintSeverity.error "C" "n"]]⟩],
    PrintedLintErrors.yes)

theorem ltChars_irrefl : ∀ l, ltChars l l = false
  | [] => rfl
  | a :: as => by
    simp only [ltChars, if_neg (lt_irrefl a)]
    exact ltChars_irrefl as

theorem ltChars_asymm : ∀ a b, ltChars a b = true → ltChars b a = false := by
  intro a
  induction a with
  | nil =>
    intro b h
    cases b with
    | nil => rfl
    | cons x xs => rfl
  | cons c cs ih =>
    intro b h
    cases b with
    | nil => exact absurd h (by simp [ltChars])
    | cons x xs =>
      by_cases h1 : c < x
      · simp only [ltChars, if_neg (lt_asymm h1), if_pos h1]
      · by_cases h2 : x < c
        · simp only [ltChars, if_neg h1, if_pos h2, Bool.false_eq_true] at h
        · simp only [ltChars, if_neg h1, if_neg h2] at h
          simp only [ltChars, if_neg h2, if_neg h1]
          exact ih xs h

theorem ltChars_trichot : ∀ a b, ltChars a b = true ∨ ltChars b a = true ∨ a = b := by
  intro a
  induction a with
  | nil =>
    intro b
    cases b with
    | nil => exact Or.inr (Or.inr rfl)
    | cons x xs => exact Or.inl rfl
  | cons c cs ih =>
    intro b
    cases b with
    | nil => exact Or.inr (Or.inl rfl)
    | cons x xs =>
      rcases lt_trichotomy c x with h1 | h1 | h1
      · exact Or.inl (by simp only [ltChars, if_pos h1])
      · subst h1
        rcases ih xs with h2 | h2 | h2
        · exact Or.inl (by simp only [ltChars, if_neg (lt_irrefl c)]; exact h2)
        · exact Or.inr (Or.inl (by simp only [ltChars, if_neg (lt_irrefl c)]; exact h2))
        · exact Or.inr (Or.inr (by rw [h2]))
      · exact Or.inr (Or.inl (by simp only [ltChars, if_pos h1]))

theorem ltChars_trans : ∀ a b c, ltChars a b = true → ltChars b c = true →
    ltChars a c = true := by
  intro a
  induction a with
  | nil =>
    intro b c h1 h2
    cases b with
    | nil => exact absurd h1 (by simp [ltChars])
    | cons q qs =>
      cases c with
      | nil => exact absurd h2 (by simp [ltChars])
      | cons r rs => rfl
  | cons p ps ih =>
    intro b c h1 h2
    cases b with
    | nil => exact absurd h1 (by simp [ltChars])
    | cons q qs =>
      cases c with
      | nil => exact absurd h2 (by simp [ltChars])
      | cons r rs =>
        by_cases hpq : p < q
        · by_cases hqr : q < r
          · simp only [ltChars, if_pos (lt_trans hpq hqr)]
          · by_cases hrq : r < q
            · simp only [ltChars, if_neg hqr, if_pos hrq, Bool.false_eq_true] at h2
            · have hq : q = r := le_antisymm (le_of_not_lt hrq) (le_of_not_lt hqr)
              subst hq
              simp only [ltChars, if_pos hpq]
        · by_cases hqp : q < p
          · simp only [ltChars, if_neg hpq, if_pos hqp, Bool.false_eq_true] at h1
          · have hp : p = q := le_antisymm (le_of_not_lt hqp) (le_of_not_lt hpq)
            subst hp
            simp only [ltChars, if_neg hpq, if_neg hqp] at h1
            by_cases hqr : p < r
            · simp only [ltChars, if_pos hqr]
            · by_cases hrq : r < p
              · simp only [ltChars, if_neg hqr, if_pos hrq, Bool.false_eq_true] at h2
              · have hq : p = r := le_antisymm (le_of_not_lt hrq) (le_of_not_lt hqr)
                subst hq
                simp only [ltChars, if_neg hqr] at h2 ⊢
                exact ih qs rs h1 h2

theorem ltChars_antisymm {a b : List Char} (h1 : ltChars a b = false)
    (h2 : ltChars b a = false) : a = b := by
  rcases ltChars_trichot a b with h | h | h
  · rw [h] at h1; exact absurd h1 (by simp)
  · rw [h] at h2; exact absurd h2 (by simp)
  · exact h

instance : IsTotal String strLe :=
  ⟨fun a b => by
    rcases ltChars_trichot a.data b.data with h | h | h
    · exact Or.inl (ltChars_asymm _ _ h)
    · exact Or.inr (ltChars_asymm _ _ h)
    · exact Or.inl (show ltChars b.data a.data = false by
        rw [← h]; exact ltChars_irrefl _)⟩

instance : IsTrans String strLe :=
  ⟨fun a b c h1 h2 => by
    show ltChars c.data a.data = false
    cases hca : ltChars c.data a.data with
    | false => rfl
    | true =>
      exfalso
      rcases ltChars_trichot b.data c.data with h | h | h
      · have hba := ltChars_trans _ _ _ h hca
        rw [h1] at hba
        exact Bool.noConfusion hba
      · rw [h2] at h
        exact Bool.noConfusion h
      · have h1' : ltChars b.data a.data = false := h1
        rw [h] at h1'
        rw [h1'] at hca
        exact Bool.noConfusion hca⟩

instance : IsAntisymm String strLe :=
  ⟨fun a b h1 h2 => by
    cases a with
    | mk da =>
      cases b with
      | mk db => exact congrArg String.mk (ltChars_antisymm h2 h1)⟩

theorem ltChars_iff_lex : ∀ a b : List Char, ltChars a b = true ↔ List.Lex (· < ·) a b := by
  intro a
  induction a with
  | nil =>
    intro b
    cases b with
    | nil => exact iff_of_false (by simp [ltChars]) (List.Lex.not_nil_right _ _)
    | cons x xs => exact iff_of_true rfl List.Lex.nil
  | cons c cs ih =>
    intro b
    cases b with
    | nil => exact iff_of_false (by simp [ltChars]) (List.Lex.not_nil_right _ _)
    | cons x xs =>
      by_cases h1 : c < x
      · exact iff_of_true (by simp only [ltChars, if_pos h1]) (List.Lex.rel h1)
      · by_cases h2 : x < c
        · refine iff_of_false (by simp [ltChars, if_neg h1, if_pos h2]) ?_
          intro hl
          cases hl with
          | cons h => exact absurd h2 (lt_irrefl _)
          | rel h => exact h1 h
        · have hc : c = x := le_antisymm (le_of_not_lt h2) (le_of_not_lt h1)
          subst hc
          simp only [ltChars, if_neg h1, if_neg h2]
          rw [ih xs]
          constructor
          · exact fun h => List.Lex.cons h
          · intro hl
            cases hl with
            | cons h => exact h
            | rel h => exact absurd h h1

/-- The embedding's path comparison agrees with ordinary string
comparison. -/
theorem strLt_iff_lt (a b : String) : strLt a b ↔ a < b := by
  rw [String.lt_iff_toList_lt]
  exact ltChars_iff_lex a.data b.data

theorem traverseExcept_ok_of_forall {α β ε : Type} {f : α → Except ε β} :
    ∀ {l : List α}, (∀ a ∈ l, ∃ b, f a = Except.ok b) →
      ∃ ys, traverseExcept f l = Except.ok ys := by
  intro l
  induction l with
  | nil => exact fun _ => ⟨[], rfl⟩
  | cons x xs ih =>
    intro h
    obtain ⟨y, hy⟩ := h x (List.mem_cons_self x xs)
    obtain ⟨ys, hys⟩ := ih fun a ha => h a (List.mem_cons_of_mem _ ha)
    exact ⟨y :: ys, by simp [traverseExcept, hy, hys]⟩

theorem traverseExcept_forall₂ {α β ε : Type} {f : α → Except ε β} :
    ∀ {l : List α} {ys : List β}, traverseExcept f l = Except.ok ys →
      List.Forall₂ (fun a b => f a = Except.ok b) l ys := by
  intro l
  induction l with
  | nil =>
    intro ys h
    simp only [traverseExcept, Except.ok.injEq] at h
    subst h
    exact List.Forall₂.nil
  | cons x xs ih =>
    intro ys h
    cases hx : f x with
    | error e => simp [traverseExcept, hx] at h
    | ok y =>
      cases hxs : traverseExcept f xs with
      | error e => simp [traverseExcept, hx, hxs] at h
      | ok ys' =>
        simp only [traverseExcept, hx, hxs, Except.ok.injEq] at h
        subst h
        exact List.Forall₂.cons hx (ih hxs)

theorem forall₂_mem_right {α β : Type} {R : α → β → Prop} :
    ∀ {l : List α} {l' : List β}, List.Forall₂ R l l' → ∀ b ∈ l', ∃ a ∈ l, R a b := by
  intro l l' h
  induction h with
  | nil => intro b hb; simp at hb
  | cons hr _ ih =>
    intro b hb
    rcases List.mem_cons.mp hb with hb | hb
    · subst hb
      exact ⟨_, List.mem_cons_self _ _, hr⟩
    · obtain ⟨a, ha, har⟩ := ih b hb
      exact ⟨a, List.mem_cons_of_mem _ ha, har⟩

theorem forall₂_map_right {α β : Type} {R : α → β → Prop} {g : β → α} :
    ∀ {l : List α} {l' : List β}, List.Forall₂ R l l' → (∀ a b, R a b → g b = a) →
      l'.map g = l := by
  intro l l' h
  induction h with
  | nil => exact fun _ => rfl
  | cons hr _ ih =>
    intro hg
    simp only [List.map]
    rw [hg _ _ hr, ih hg]

theorem lookup_isSome_of_mem_keys {m : List (String × List LintMessage)} {p : String}
    (h : p ∈ m.map Prod.fst) : ∃ v, List.lookup p m = some v := by
  induction m with
  | nil => simp at h
  | cons kv rest ih =>
    rcases kv with ⟨k, v⟩
    by_cases hk : p = k
    · exact ⟨v, by simp [List.lookup, hk]⟩
    · simp only [List.map, List.mem_cons] at h
      rcases h with h | h
      · exact absurd h hk
      · obtain ⟨w, hw⟩ := ih h
        refine ⟨w, ?_⟩
        have hbeq : (p == k) = false := beq_eq_false_iff_ne.mpr hk
        simp [List.lookup, hbeq, hw]

theorem renderSection_ok_inv {cwd : Option (List Char)} {fsRead : String → Option (List Char)}
    {m : List (String × List LintMessage)} {p : String} {s : FileSection}
    (h : renderSection cwd fsRead m p = Except.ok s) :
    s.path = p ∧
      traverseExcept (renderFinding fsRead p) ((List.lookup p m).getD []) =
        Except.ok s.findings := by
  cases cwd with
  | none => simp [renderSection] at h
  | some d =>
    simp only [renderSection] at h
    cases hrel : path_relative_from p.data d with
    | none => rw [hrel] at h; simp at h
    | some rel =>
      rw [hrel] at h
      cases htr : traverseExcept (renderFinding fsRead p) ((List.lookup p m).getD []) with
      | error e => rw [htr] at h; simp at h
      | ok fevs =>
        rw [htr] at h
        have hs := Except.ok.inj h
        subst hs
        exact ⟨rfl, rfl⟩

/-- C8: for an error with `k ≥ 0` chained causes, `print_error` writes
exactly one `error:` line, then exactly one `caused_by:` line per cause in
outermost-to-innermost order; a chain that is empty after its first
element prints only the top-level line (and the call does not fail — the
writes are modelled as infallible, matching the `Ok(())` it returns when
the terminal accepts the output). -/
theorem C8_error_chain (e : String) (causes : List String) :
    (print_error (e :: causes)).countP isErrorLine = 1 ∧
    (print_error (e :: causes)).filter isCausedBy = causes.map ErrLine.causedBy ∧
    print_error [e] = [ErrLine.errorLine e] := by
  refine ⟨?_, ?_, rfl⟩
  · simp [print_error, List.countP_cons, isErrorLine, List.countP_map, Function.comp_def]
  · simp [print_error, isErrorLine, isCausedBy, List.filter_map, Function.comp_def]

theorem utf8DecodeFuel_replicate_space :
    ∀ fuel n, n ≤ fuel →
      utf8DecodeFuel fuel (List.replicate n 32) = some (List.replicate n ' ') := by
  intro fuel
  induction fuel with
  | zero =>
    intro n hn
    have h0 : n = 0 := Nat.le_zero.mp hn
    subst h0
    rfl
  | succ f ih =>
    intro n hn
    cases n with
    | zero => rfl
    | succ k =>
      rw [List.replicate_succ, utf8DecodeFuel, utf8Step.eq_def,
        if_pos (by norm_num : (32 : Nat) < 128), ih k (Nat.le_of_succ_le_succ hn),
        Option.map_some']
      rfl

theorem utf8Decode_replicate_space (n : Nat) :
    utf8Decode (List.replicate n 32) = some (List.replicate n ' ') := by
  rw [utf8Decode, List.length_replicate]
  exact utf8DecodeFuel_replicate_space n n (le_refl n)

/-- C10: for every `u8` length (`len < 256`), the byte slice
`&SPACES[0..len]` is in bounds (the slice succeeds) and consists of
exactly `len` space bytes, and reinterpreting it as text is sound: it is
valid UTF-8 decoding to exactly `len` ASCII spaces. -/
theorem C10_spaces_valid (len : Nat) (h : len < 256) :
    bspaces len = some (List.replicate len 32) ∧
    spaces len = some (List.replicate len ' ') := by
  have hlen : SPACES.length = 255 := by rw [SPACES, List.length_replicate]
  have hle : len ≤ SPACES.length := by rw [hlen]; omega
  have hb : bspaces len = some (SPACES.take len) := by rw [bspaces, if_pos hle]
  rw [SPACES, List.take_replicate, Nat.min_eq_left (by omega)] at hb
  refine ⟨hb, ?_⟩
  simp only [spaces, hb]
  exact utf8Decode_replicate_space len

theorem C10_spaces_valid_witness :
    4 < 256 ∧
      (bspaces 4 = some (List.replicate 4 32) ∧
        spaces 4 = some (List.replicate 4 ' ')) :=
  ⟨by decide, C10_spaces_valid 4 (by decide)⟩

/-- C3: for a file of `N ≥ 1` lines and any 1-indexed `target_line`, the
window is computed as `start_idx = target_idx.saturating_sub(3)` and
`end_idx = min(N - 1, target_idx + 3)` (in `Nat`, `-` is saturating
subtraction, exactly Rust's `saturating_sub` on `usize`); with
`target_line = 1` the start index saturates at `0`, and with
`target_line = N` the window never extends past index `N - 1`. -/
theorem C3_window_bounds (numLines lineNumber : Nat) (h : 1 ≤ numLines) :
    contextStartIdx lineNumber = (lineNumber - 1) - CONTEXT_LINES ∧
    contextEndIdx numLines lineNumber = min (numLines - 1) ((lineNumber - 1) + CONTEXT_LINES) ∧
    contextStartIdx 1 = 0 ∧
    contextEndIdx numLines numLines ≤ numLines - 1 :=
  ⟨rfl, rfl, rfl, min_le_left _ _⟩

theorem C3_window_bounds_witness :
    1 ≤ 10 ∧
      (contextStartIdx 1 = (1 - 1) - CONTEXT_LINES ∧
        contextEndIdx 10 1 = min (10 - 1) ((1 - 1) + CONTEXT_LINES) ∧
        contextStartIdx 1 = 0 ∧
        contextEndIdx 10 10 ≤ 10 - 1) :=
  ⟨by decide, C3_window_bounds 10 1 (by decide)⟩

/-- C5: rendering an empty findings mapping prints exactly one
confirmation line (`ok No lint issues.`), contains no per-file sections,
and returns the `Empty` (`PrintedLintErrors::No`) outcome. -/
theorem C5_empty_mapping (cwd : Option (List Char)) (fsRead : String → Option (List Char)) :
    render_lint_messages cwd fsRead [] =
      Except.ok ([TopEvent.noIssues], PrintedLintErrors.no) ∧
    sectionsOf [TopEvent.noIssues] = [] :=
  ⟨rfl, rfl⟩

/-- C6: whenever `render_lint_messages` succeeds on a non-empty mapping it
returns the `Printed` (`PrintedLintErrors::Yes`) outcome, regardless of
what the individual findings contained. -/
theorem C6_nonempty_printed (cwd : Option (List Char)) (fsRead : String → Option (List Char))
    (m : List (String × List LintMessage)) (r : List TopEvent × PrintedLintErrors)
    (hm : m ≠ []) (h : render_lint_messages cwd fsRead m = Except.ok r) :
    r.2 = PrintedLintErrors.yes := by
  have hne : m.isEmpty = false := by
    cases m with
    | nil => exact absurd rfl hm
    | cons a t => rfl
  simp only [render_lint_messages, hne, Bool.false_eq_true, if_false] at h
  cases htr : traverseExcept (renderSection cwd fsRead m)
      (List.insertionSort strLe (m.map Prod.fst)) with
  | error e => rw [htr] at h; simp at h
  | ok secs =>
    rw [htr] at h
    have hr := Except.ok.inj h
    rw [← hr]

theorem C6_nonempty_printed_witness :
    (([TopEvent.fileSection ⟨"/home/a.txt", ['a', '.', 't', 'x', 't'], []⟩],
        PrintedLintErrors.yes) : List TopEvent × PrintedLintErrors).2 =
      PrintedLintErrors.yes :=
  C6_nonempty_printed (some "/home".data) (fun _ => none) [("/home/a.txt", [])] _
    (by decide) (by decide)

theorem renderContext_ok {file : List Char} (lineNumber : Nat)
    (h : tokenizeLines file ≠ []) : ∃ w, renderContext file lineNumber = Except.ok w := by
  have hlen : 1 ≤ (tokenizeLines file).length := List.length_pos.mpr h
  simp only [renderContext]
  apply traverseExcept_ok_of_forall
  intro curIdx hcur
  rw [List.mem_range'_1] at hcur
  have h3 : contextEndIdx (tokenizeLines file).length lineNumber ≤
      (tokenizeLines file).length - 1 := min_le_left _ _
  have hend : curIdx < (tokenizeLines file).length := by omega
  rw [List.get?_eq_get hend]
  exact ⟨_, rfl⟩

/-- C9: on a file with at least one line the context-window loop can
never fail: every index of the clamped window is a valid line index, a
`target_line` exceeding the line count by more than the context width
gives an empty window (the renderer prints nothing and succeeds), and
the line-mismatch error is reachable only for a zero-line file. -/
theorem C9_loop_never_mismatches (file : List Char) (lineNumber : Nat)
    (h : tokenizeLines file ≠ []) :
    (∃ w, renderContext file lineNumber = Except.ok w) ∧
    ((tokenizeLines file).length + CONTEXT_LINES < lineNumber →
      renderContext file lineNumber = Except.ok []) ∧
    (∀ file' lineNumber',
      renderContext file' lineNumber' = Except.error RenderErr.lineMismatch →
        tokenizeLines file' = []) := by
  refine ⟨renderContext_ok lineNumber h, ?_, ?_⟩
  · intro hgt
    have hlen : 1 ≤ (tokenizeLines file).length := List.length_pos.mpr h
    simp only [renderContext]
    have hcnt : contextEndIdx (tokenizeLines file).length lineNumber + 1 -
        contextStartIdx lineNumber = 0 := by
      simp only [contextStartIdx, contextEndIdx, CONTEXT_LINES] at *
      omega
    rw [hcnt]
    rfl
  · intro file' lineNumber' herr
    by_contra hne
    obtain ⟨w, hw⟩ := renderContext_ok lineNumber' hne
    rw [hw] at herr
    exact Except.noConfusion herr

theorem C9_loop_never_mismatches_witness :
    tokenizeLines "a\n".data ≠ [] ∧
      ((∃ w, renderContext "a\n".data 9 = Except.ok w) ∧
        ((tokenizeLines "a\n".data).length + CONTEXT_LINES < 9 →
          renderContext "a\n".data 9 = Except.ok []) ∧
        (∀ file' lineNumber',
          renderContext file' lineNumber' = Except.error RenderErr.lineMismatch →
            tokenizeLines file' = [])) :=
  ⟨by decide, C9_loop_never_mismatches "a\n".data 9 (by decide)⟩

/-- C1 as stated is false: on the one-line file `"a\n"`, a finding with
`line = 2` (a `target_line` strictly greater than the line count) does
NOT fail with the line-mismatch error — the whole render call succeeds,
printing a clamped (wrong) window showing line 1 without a highlight,
and returns `Printed`. -/
theorem C1_counterexample :
    (tokenizeLines "a\n".data).length = 1 ∧
    render_lint_messages (some "/home".data)
        (fun p => if p = "/home/a.txt" then some "a\n".data else none)
        [("/home/a.txt",
          [{ severity := LintSeverity.warning, code := "FLAKE8", name := "line-too-long",
             description := none, original := none, replacement := none, line := some 2 }])] =
      Except.ok
        ([TopEvent.fileSection
            { path := "/home/a.txt", relPath := ['a', '.', 't', 'x', 't'],
              findings := [[Event.findingHeader LintSeverity.warning "FLAKE8" "line-too-long",
                Event.contextLine ⟨1, ['a', '\n'], false⟩]] }],
          PrintedLintErrors.yes) :=
  ⟨by decide, by decide⟩

/-- C1 amended: when `target_line` exceeds the line count of a file with
at least one line, the context-window branch does not fail: it succeeds
with a clamped window near the end of the file (empty when the excess is
more than the context width) in which no line is highlighted; the
line-mismatch error is reachable only for a zero-line file. -/
theorem C1_amended (file : List Char) (lineNumber : Nat)
    (h1 : tokenizeLines file ≠ []) (h2 : (tokenizeLines file).length < lineNumber) :
    ∃ w, renderContext file lineNumber = Except.ok w ∧ ∀ c ∈ w, c.highlighted = false := by
  obtain ⟨w, hw⟩ := renderContext_ok lineNumber h1
  refine ⟨w, hw, ?_⟩
  intro c hc
  simp only [renderContext] at hw
  have hf := traverseExcept_forall₂ hw
  obtain ⟨curIdx, _hmem, hfc⟩ := forall₂_mem_right hf c hc
  cases hget : (tokenizeLines file).get? curIdx with
  | none => rw [hget] at hfc; exact Except.noConfusion hfc
  | some l =>
    rw [hget] at hfc
    have hc' := Except.ok.inj hfc
    subst hc'
    have hlt : curIdx < (tokenizeLines file).length := by
      have := List.get?_eq_some.mp hget
      exact this.1
    show (curIdx == lineNumber - 1) = false
    have hne : curIdx ≠ lineNumber - 1 := by omega
    exact beq_eq_false_iff_ne.mpr hne

theorem C1_amended_witness :
    tokenizeLines "a\n".data ≠ [] ∧ (tokenizeLines "a\n".data).length < 2 ∧
      ∃ w, renderContext "a\n".data 2 = Except.ok w ∧ ∀ c ∈ w, c.highlighted = false :=
  ⟨by decide, by decide, C1_amended "a\n".data 2 (by decide) (by decide)⟩

/-- C2 as stated is false on one of its two triggers: when a finding's
file path cannot be expressed relative to the current working directory
(here a path rooted at `C:` against a directory rooted at `D:`), the
source `unwrap`s the `None`, so the call panics instead of returning a
propagated error value. -/
theorem C2_counterexample :
    render_lint_messages (some "D:/home".data) (fun _ => none) [("C:/a.txt", [])] =
      Except.error RenderErr.panicked ∧
    isPropagatedErr RenderErr.panicked = false :=
  ⟨by decide, rfl⟩

/-- C2 amended: with a non-empty mapping, failure to determine the
current working directory is returned as a propagated error before
anything of the file is rendered; failure to relativize a path aborts
rendering too, but as a panic (the source's `.unwrap()`), not a returned
error.  In both cases no fallback display path is used and the failure
is not swallowed. -/
theorem C2_abort_no_fallback (fsRead : String → Option (List Char))
    (m : List (String × List LintMessage)) (d : List Char) :
    (m ≠ [] → render_lint_messages none fsRead m = Except.error RenderErr.cwd) ∧
    (m ≠ [] → (∀ p ∈ m.map Prod.fst, path_relative_from p.data d = none) →
      render_lint_messages (some d) fsRead m = Except.error RenderErr.panicked) := by
  have hsortlen : (List.insertionSort strLe (m.map Prod.fst)).length = (m.map Prod.fst).length :=
    List.length_insertionSort strLe (m.map Prod.fst)
  constructor
  · intro hm
    have hne : m.isEmpty = false := by
      cases m with
      | nil => exact absurd rfl hm
      | cons a t => rfl
    simp only [render_lint_messages, hne, Bool.false_eq_true, if_false]
    cases hp : List.insertionSort strLe (m.map Prod.fst) with
    | nil =>
      exfalso
      rw [hp] at hsortlen
      cases m with
      | nil => exact hm rfl
      | cons a t => simp at hsortlen
    | cons p ps => simp [traverseExcept, renderSection]
  · intro hm hall
    have hne : m.isEmpty = false := by
      cases m with
      | nil => exact absurd rfl hm
      | cons a t => rfl
    simp only [render_lint_messages, hne, Bool.false_eq_true, if_false]
    cases hp : List.insertionSort strLe (m.map Prod.fst) with
    | nil =>
      exfalso
      rw [hp] at hsortlen
      cases m with
      | nil => exact hm rfl
      | cons a t => simp at hsortlen
    | cons p ps =>
      have hmem : p ∈ m.map Prod.fst := by
        have := (List.perm_insertionSort strLe (m.map Prod.fst)).mem_iff.mp
          (by rw [hp]; exact List.mem_cons_self p ps)
        exact this
      simp [traverseExcept, renderSection, hall p hmem]

theorem C2_abort_no_fallback_witness :
    render_lint_messages none (fun _ => none) [("C:/a.txt", [])] =
      Except.error RenderErr.cwd ∧
    render_lint_messages (some "D:/home".data) (fun _ => none) [("C:/a.txt", [])] =
      Except.error RenderErr.panicked :=
  ⟨(C2_abort_no_fallback (fun _ => none) [("C:/a.txt", [])] "D:/home".data).1 (by decide),
   (C2_abort_no_fallback (fun _ => none) [("C:/a.txt", [])] "D:/home".data).2 (by decide)
     (by decide)⟩

theorem commonPrefixLen_self : ∀ l : List (List Char), commonPrefixLen l l = l.length
  | [] => rfl
  | a :: as => by simp [commonPrefixLen, commonPrefixLen_self as]

theorem textDiffOps_self (l : List (List Char)) :
    textDiffOps l l = if 0 < l.length then [DiffOp.equal 0 0 l.length] else [] := by
  simp [textDiffOps, commonPrefixLen_self, List.drop_length, commonPrefixLen]

theorem groupLoop_single_equal (n a b c : Nat) (hc : ¬ n * 2 < c) :
    groupLoop n [] [DiffOp.equal a b c] = [] := by
  rw [groupLoop, if_neg hc, groupLoop]

theorem groupedOps_single (oi ni len n : Nat) : groupedOps [DiffOp.equal oi ni len] n = [] := by
  show groupLoop n [] (shrinkLast n (shrinkFirst n [DiffOp.equal oi ni len])) = []
  have h1 : shrinkFirst n [DiffOp.equal oi ni len] =
      [DiffOp.equal (oi + (len - n)) (ni + (len - n)) (len - (len - n))] := rfl
  have h2 : shrinkLast n [DiffOp.equal (oi + (len - n)) (ni + (len - n)) (len - (len - n))] =
      [DiffOp.equal (oi + (len - n)) (ni + (len - n)) (min (len - (len - n)) n)] := rfl
  rw [h1, h2]
  apply groupLoop_single_equal
  have hmin : min (len - (len - n)) n ≤ n := min_le_right _ _
  omega

theorem renderDiffGroupsAux_succ :
    ∀ (gs : List (List DiffOp)) (k : Nat),
      renderDiffGroupsAux (k + 1) gs =
        (gs.map (fun g => DiffEvent.separator :: groupChanges g)).flatten := by
  intro gs
  induction gs with
  | nil => intro k; rfl
  | cons g gs ih =>
    intro k
    rw [renderDiffGroupsAux, if_pos (Nat.succ_pos k), ih (k + 1)]
    simp

theorem flatten_intersperse (x : List DiffEvent) :
    ∀ (t : List (List DiffEvent)) (a : List DiffEvent),
      (List.intersperse x (a :: t)).flatten = a ++ (t.map (fun b => x ++ b)).flatten := by
  intro t
  induction t with
  | nil => intro a; simp [List.intersperse]
  | cons b t ih =>
    intro a
    have hstep : List.intersperse x (a :: b :: t) = a :: x :: List.intersperse x (b :: t) := by
      simp [List.intersperse]
    rw [hstep]
    simp only [List.flatten_cons]
    rw [ih b]
    simp [List.append_assoc]

/-- C7: a finding whose `original` and `replacement` are identical
renders a diff body with no change-marked lines at all (the grouped ops
are empty, so not even context is printed — consistent with the spec's
"no visible output beyond whitespace"); and the full-width dashed rule is
emitted exactly between the renderings of consecutive hunks — never
before the first hunk and never after the last. -/
theorem C7_identical_diff_and_separators :
    (∀ original : String, renderDiff original original = []) ∧
    (∀ groups : List (List DiffOp),
      renderDiffGroups groups =
        (List.intersperse [DiffEvent.separator] (groups.map groupChanges)).flatten) := by
  constructor
  · intro original
    by_cases hl : 0 < (tokenizeLines original.data).length
    · rw [renderDiff, textDiffOps_self, if_pos hl, groupedOps_single]
      rfl
    · rw [renderDiff, textDiffOps_self, if_neg hl]
      rfl
  · intro groups
    cases groups with
    | nil => rfl
    | cons g gs =>
      rw [renderDiffGroups, renderDiffGroupsAux, if_neg (lt_irrefl 0),
        renderDiffGroupsAux_succ gs 0, List.map_cons, flatten_intersperse]
      simp [Function.comp_def]

theorem sectionsOf_map_fileSection :
    ∀ l : List FileSection, sectionsOf (l.map TopEvent.fileSection) = l := by
  intro l
  induction l with
  | nil => rfl
  | cons s t ih =>
    have hstep : sectionsOf (TopEvent.fileSection s :: t.map TopEvent.fileSection) =
        s :: sectionsOf (t.map TopEvent.fileSection) := by
      simp [sectionsOf, List.filterMap_cons]
    rw [List.map_cons, hstep, ih]

theorem strLe_ne_lt (a b : String) (hle : strLe a b) (hne : a ≠ b) : a < b := by
  rcases ltChars_trichot a.data b.data with h | h | h
  · exact (strLt_iff_lt a b).mp h
  · rw [hle] at h
    exact Bool.noConfusion h
  · exfalso
    apply hne
    cases a with
    | mk da =>
      cases b with
      | mk db => exact congrArg String.mk h

theorem render_ok_inv {cwd : Option (List Char)} {fsRead : String → Option (List Char)}
    {m : List (String × List LintMessage)} {r : List TopEvent × PrintedLintErrors}
    (hm : m.isEmpty = false) (h : render_lint_messages cwd fsRead m = Except.ok r) :
    (sectionsOf r.1).map FileSection.path = List.insertionSort strLe (m.map Prod.fst) ∧
    ∀ s ∈ sectionsOf r.1, renderSection cwd fsRead m s.path = Except.ok s := by
  simp only [render_lint_messages, hm, Bool.false_eq_true, if_false] at h
  cases htr : traverseExcept (renderSection cwd fsRead m)
      (List.insertionSort strLe (m.map Prod.fst)) with
  | error e => rw [htr] at h; exact absurd h (by simp)
  | ok secs =>
    rw [htr] at h
    have hr : r = (secs.map TopEvent.fileSection, PrintedLintErrors.yes) :=
      (Except.ok.inj h).symm
    subst hr
    constructor
    · show (sectionsOf (secs.map TopEvent.fileSection)).map FileSection.path = _
      rw [sectionsOf_map_fileSection]
      exact forall₂_map_right (traverseExcept_forall₂ htr)
        (fun p s hs => (renderSection_ok_inv hs).1)
    · intro s hs
      have hs' : s ∈ secs := by
        have hs2 : s ∈ sectionsOf (secs.map TopEvent.fileSection) := hs
        rw [sectionsOf_map_fileSection] at hs2
        exact hs2
      obtain ⟨p, _hp, hrs⟩ := forall₂_mem_right (traverseExcept_forall₂ htr) s hs'
      have hpath := (renderSection_ok_inv hrs).1
      show renderSection cwd fsRead m s.path = Except.ok s
      rw [hpath]
      exact hrs

/-- C4: on any mapping whose rendering succeeds, the per-file sections
come out in strictly ascending order of absolute-path string comparison;
the order is the same for any permutation of the mapping (iteration
order of the `HashMap` is irrelevant); and within each file the findings
are rendered exactly in their stored sequence order. -/
theorem C4_sections_sorted (cwd : Option (List Char)) (fsRead : String → Option (List Char))
    (m m' : List (String × List LintMessage)) (hperm : List.Perm m m')
    (hnodup : (m.map Prod.fst).Nodup)
    (r r' : List TopEvent × PrintedLintErrors)
    (h : render_lint_messages cwd fsRead m = Except.ok r)
    (h' : render_lint_messages cwd fsRead m' = Except.ok r') :
    List.Sorted (· < ·) ((sectionsOf r.1).map FileSection.path) ∧
    (sectionsOf r.1).map FileSection.path = (sectionsOf r'.1).map FileSection.path ∧
    ∀ s ∈ sectionsOf r.1, ∃ msgs, List.lookup s.path m = some msgs ∧
      List.Forall₂ (fun msg evs => renderFinding fsRead s.path msg = Except.ok evs)
        msgs s.findings := by
  by_cases hmnil : m = []
  · subst hmnil
    have hm' : m' = [] := List.Perm.eq_nil hperm.symm
    subst hm'
    have hr : Except.ok ([TopEvent.noIssues], PrintedLintErrors.no) = Except.ok r := h
    have hr' : Except.ok ([TopEvent.noIssues], PrintedLintErrors.no) = Except.ok r' := h'
    have hr2 : r = ([TopEvent.noIssues], PrintedLintErrors.no) := (Except.ok.inj hr).symm
    have hr2' : r' = ([TopEvent.noIssues], PrintedLintErrors.no) := (Except.ok.inj hr').symm
    subst hr2
    subst hr2'
    refine ⟨List.sorted_nil, rfl, ?_⟩
    intro s hs
    exact absurd hs (by simp [sectionsOf])
  · have hm : m.isEmpty = false := by
      cases m with
      | nil => exact absurd rfl hmnil
      | cons a t => rfl
    have hm'nil : m' ≠ [] := fun hh => hmnil (List.Perm.eq_nil (hh ▸ hperm))
    have hm' : m'.isEmpty = false := by
      cases m' with
      | nil => exact absurd rfl hm'nil
      | cons a t => rfl
    obtain ⟨hpaths, hsec⟩ := render_ok_inv hm h
    obtain ⟨hpaths', _hsec'⟩ := render_ok_inv hm' h'
    have hnodup_paths : (List.insertionSort strLe (m.map Prod.fst)).Nodup :=
      ((List.perm_insertionSort strLe (m.map Prod.fst)).nodup_iff).mpr hnodup
    have hsorted_le : List.Sorted strLe (List.insertionSort strLe (m.map Prod.fst)) :=
      List.sorted_insertionSort strLe (m.map Prod.fst)
    have hsorted_lt : List.Sorted (· < ·) (List.insertionSort strLe (m.map Prod.fst)) :=
      List.Pairwise.imp₂ (fun a b hle hne => strLe_ne_lt a b hle hne) hsorted_le hnodup_paths
    refine ⟨?_, ?_, ?_⟩
    · rw [hpaths]
      exact hsorted_lt
    · rw [hpaths, hpaths']
      have hpp : List.Perm (List.insertionSort strLe (m.map Prod.fst))
          (List.insertionSort strLe (m'.map Prod.fst)) :=
        ((List.perm_insertionSort strLe (m.map Prod.fst)).trans (hperm.map Prod.fst)).trans
          (List.perm_insertionSort strLe (m'.map Prod.fst)).symm
      exact List.eq_of_perm_of_sorted hpp hsorted_le (List.sorted_insertionSort strLe _)
    · intro s hs
      have hrsec := hsec s hs
      obtain ⟨_hpatheq, htrv⟩ := renderSection_ok_inv hrsec
      have hmem_paths : s.path ∈ List.insertionSort strLe (m.map Prod.fst) := by
        rw [← hpaths]
        exact List.mem_map_of_mem FileSection.path hs
      have hmem_keys : s.path ∈ m.map Prod.fst :=
        (List.perm_insertionSort strLe (m.map Prod.fst)).mem_iff.mp hmem_paths
      obtain ⟨msgs, hlk⟩ := lookup_isSome_of_mem_keys hmem_keys
      refine ⟨msgs, hlk, ?_⟩
      rw [hlk] at htrv
      exact traverseExcept_forall₂ htrv

theorem C4_sections_sorted_witness :
    List.Sorted (· < ·) ((sectionsOf sampleResult.1).map FileSection.path) ∧
    (sectionsOf sampleResult.1).map FileSection.path =
      (sectionsOf sampleResult.1).map FileSection.path ∧
    ∀ s ∈ sectionsOf sampleResult.1, ∃ msgs, List.lookup s.path sampleMapBA = some msgs ∧
      List.Forall₂ (fun msg evs => renderFinding (fun _ => none) s.path msg = Except.ok evs)
        msgs s.findings :=
  C4_sections_sorted (some "/home".data) (fun _ => none) sampleMapBA sampleMapAB
    (by decide) (by decide) sampleResult sampleResult (by decide) (by decide)

